import Mathlib

/-!
Verification of the random-projection utilities (`initRandProj`, `compProj`)
from `similarity_search/src/randproj_util.cc`, shallowly embedded over `ℝ`
(exact arithmetic in place of floating point).

Randomness is modelled by passing the family of standard-normal draws as an
explicit input `draw : ℕ → ℕ → ℝ` (entry `(i, j)` of the freshly drawn
matrix), and the fatal-error logging sink is modelled by an explicit error
result: a call that would hit `LOG(LIB_FATAL)` stops at that point and
returns the state reached so far together with a structured error value.
-/

namespace RandProj

noncomputable section

/-- Modelled from the spec: the external dot-product primitive
`ScalarProductSIMD(a, b, len)` (declared in `distcomp.h`, whose body is not
part of the analysed sources) computes the inner product of two equal-length
numeric vectors.  Both call sites pass two buffers of `len` elements, which
we represent as two lists of that common length. -/
def dot (u v : List ℝ) : ℝ :=
  (List.zipWith (fun a b => a * b) u v).sum

/-- The Euclidean norm `sqrt(ScalarProductSIMD(r, r, n))` used by
`initRandProj` for the normalization coefficient. -/
def euclNorm (r : List ℝ) : ℝ :=
  Real.sqrt (dot r r)

/-- The normalization loop of `initRandProj`:
`for (n = 0; n < nSrcDim; ++n) projMatr[i][n] /= normCoeff;`
with `normCoeff = sqrt(ScalarProductSIMD(row, row, nSrcDim))`. -/
def normalizeRow (r : List ℝ) : List ℝ :=
  r.map (fun x => x / euclNorm r)

/-- The subtraction loop body of `initRandProj` applied to one later row:
`coeff = ScalarProductSIMD(&projMatr[i][0], &projMatr[k][0], nSrcDim);`
then `for (n = 0; n < nSrcDim; ++n) projMatr[k][n] -= coeff * projMatr[i][n];`.
Here `u` is row `i` (already normalized in place) and `r` is row `k`. -/
def subtractProj (u r : List ℝ) : List ℝ :=
  List.zipWith (fun x y => x - dot u r * y) r u

/-- Step 1 of `initRandProj`: the freshly drawn `nDstDim × nSrcDim` matrix,
entry `(i, j)` being the draw `normGen(engine)` consumed for it. -/
def gaussMatrix (nSrcDim nDstDim : ℕ) (draw : ℕ → ℕ → ℝ) : List (List ℝ) :=
  (List.range nDstDim).map (fun i => (List.range nSrcDim).map (fun j => draw i j))

/-- The inner loop `for (k = i + 1; k < nDstDim; ++k)` of `initRandProj`,
rendered as a walk over all rows carrying the current row index `k` (starting
from `k₀`): rows with `i < k` get the projection onto `u` subtracted, the
others are left alone. -/
def subtractLater (u : List ℝ) (i : ℕ) : ℕ → List (List ℝ) → List (List ℝ)
  | _, [] => []
  | k, r :: rs => (if i < k then subtractProj u r else r) :: subtractLater u i (k + 1) rs

/-- One iteration of the outer loop `for (i = 0; i < nDstDim; ++i)` of
`initRandProj` in the `bDoOrth` branch: normalize row `i` in place, then
subtract its projection from every row `k > i`. -/
def initRandProjStep (mat : List (List ℝ)) (i : ℕ) : List (List ℝ) :=
  let u := normalizeRow (mat.getD i [])
  subtractLater u i 0 (mat.set i u)

/-- `initRandProj` from `randproj_util.cc`: draw the Gaussian matrix, then run
the outer loop, whose whole body is guarded by `if (bDoOrth)`.  (When
`bDoOrth` is false the loop does nothing: despite the comment in the source,
no per-row normalization is performed in that case.) -/
def initRandProj (nSrcDim nDstDim : ℕ) (bDoOrth : Bool) (draw : ℕ → ℕ → ℝ) :
    List (List ℝ) :=
  (List.range nDstDim).foldl
    (fun m i => if bDoOrth then initRandProjStep m i else m)
    (gaussMatrix nSrcDim nDstDim draw)

/-- Modelled from the spec: the modified Gram–Schmidt process as the spec
words it — "Normalize row `i` to unit norm", then "for each subsequent row
`k > i`: compute the scalar projection coefficient = dot(row[i], row[k]);
subtract `coefficient * row[i]` from row `k`", with no division by row `i`'s
norm in the subtraction step, each row normalized exactly once, in increasing
index order, before any later row is itself normalized. -/
def specModifiedGramSchmidt : List (List ℝ) → List (List ℝ)
  | [] => []
  | r :: rest =>
      normalizeRow r ::
        specModifiedGramSchmidt (rest.map (fun rk => subtractProj (normalizeRow r) rk))
termination_by m => m.length
decreasing_by simp

/-- The precondition of the orthonormality claim: every intermediate row norm
met by the process is nonzero, i.e. each row about to be normalized has
nonzero squared norm (linearly independent draws). -/
def gsNormsNonzero : List (List ℝ) → Prop
  | [] => True
  | r :: rest =>
      dot r r ≠ 0 ∧
        gsNormsNonzero (rest.map (fun rk => subtractProj (normalizeRow r) rk))
termination_by m => m.length
decreasing_by simp

/-- The state visible to `compProj`: the projection matrix (read through a
const reference), the source buffer (read through a const pointer) and the
destination buffer (written through a pointer). -/
structure ProjState where
  projMatr : List (List ℝ)
  srcVect : List ℝ
  dstVect : List ℝ

/-- Modelled from the spec: the fatal-error sink `LOG(LIB_FATAL)` (from
`logging.h`, whose body is not part of the analysed sources) halts execution
with a diagnostic message.  Each constructor records the data interpolated
into the corresponding message of `compProj`. -/
inductive ProjError where
  | emptyMatrix : ProjError
  | badRowCount (rows nDstDim : ℕ) : ProjError
  | badColCount (rowIdx cols nSrcDim : ℕ) : ProjError
deriving DecidableEq

/-- The loop `for (i = 0; i < nDstDim; ++i)` of `compProj`, walking the rows
of the matrix with the current index `i`: check the row's length, then write
`pDstVect[i] = ScalarProductSIMD(&projMatr[i][0], pSrcVect, nSrcDim)`.
A failed check halts at once with the state reached so far. -/
def compProjLoop (nSrcDim : ℕ) : List (List ℝ) → ℕ → ProjState → ProjState × Option ProjError
  | [], _, s => (s, none)
  | r :: rs, i, s =>
      if r.length ≠ nSrcDim then
        (s, some (ProjError.badColCount i r.length nSrcDim))
      else
        compProjLoop nSrcDim rs (i + 1)
          { s with dstVect := s.dstVect.set i (dot r s.srcVect) }

/-- `compProj` from `randproj_util.cc`: two up-front shape checks (empty
matrix, row count) followed by the per-row loop. -/
def compProj (nSrcDim nDstDim : ℕ) (s : ProjState) : ProjState × Option ProjError :=
  if s.projMatr.isEmpty then
    (s, some ProjError.emptyMatrix)
  else if s.projMatr.length ≠ nDstDim then
    (s, some (ProjError.badRowCount s.projMatr.length nDstDim))
  else
    compProjLoop nSrcDim s.projMatr 0 s

end

/-! ### Basic facts about the dot product -/

theorem dot_nil_left (v : List ℝ) : dot [] v = 0 := rfl

theorem dot_nil_right (u : List ℝ) : dot u [] = 0 := by
  cases u <;> rfl

theorem dot_cons (x : ℝ) (u : List ℝ) (y : ℝ) (v : List ℝ) :
    dot (x :: u) (y :: v) = x * y + dot u v := by
  simp [dot]

theorem dot_comm (u v : List ℝ) : dot u v = dot v u := by
  induction u generalizing v with
  | nil => cases v <;> simp [dot_nil_left, dot_nil_right]
  | cons x u ih =>
    cases v with
    | nil => simp [dot_nil_left, dot_nil_right]
    | cons y v => simp [dot_cons, ih, mul_comm]

theorem dot_self_nonneg (u : List ℝ) : 0 ≤ dot u u := by
  induction u with
  | nil => simp [dot_nil_left]
  | cons x u ih =>
    rw [dot_cons]
    have hx : 0 ≤ x * x := mul_self_nonneg x
    linarith

theorem dot_map_div_left (u v : List ℝ) (c : ℝ) :
    dot (u.map (fun x => x / c)) v = dot u v / c := by
  induction u generalizing v with
  | nil => simp [dot_nil_left]
  | cons x u ih =>
    cases v with
    | nil => simp [dot_nil_right]
    | cons y v =>
      simp only [List.map_cons, dot_cons, ih]
      ring

theorem dot_map_div_right (u v : List ℝ) (c : ℝ) :
    dot u (v.map (fun x => x / c)) = dot u v / c := by
  rw [dot_comm, dot_map_div_left, dot_comm]

theorem dot_zipWith_sub (w r u : List ℝ) (c : ℝ) (h : r.length = u.length) :
    dot w (List.zipWith (fun x y => x - c * y) r u) = dot w r - c * dot w u := by
  induction w generalizing r u with
  | nil => simp [dot_nil_left]
  | cons a w ih =>
    cases r with
    | nil =>
      cases u with
      | nil => simp [dot_nil_right]
      | cons y u => simp at h
    | cons x r =>
      cases u with
      | nil => simp at h
      | cons y u =>
        simp only [List.zipWith_cons_cons, dot_cons]
        rw [ih r u (by simpa using h)]
        ring

theorem dot_subtractProj (w u r : List ℝ) (h : r.length = u.length) :
    dot w (subtractProj u r) = dot w r - dot u r * dot w u := by
  unfold subtractProj
  exact dot_zipWith_sub w r u (dot u r) h

theorem length_subtractProj (u r : List ℝ) (h : r.length = u.length) :
    (subtractProj u r).length = r.length := by
  simp [subtractProj, h]

theorem length_normalizeRow (r : List ℝ) : (normalizeRow r).length = r.length := by
  simp [normalizeRow]

theorem dot_normalizeRow_right (w r : List ℝ) :
    dot w (normalizeRow r) = dot w r / euclNorm r := by
  unfold normalizeRow
  exact dot_map_div_right w r (euclNorm r)

theorem dot_normalizeRow_self (r : List ℝ) (h : dot r r ≠ 0) :
    dot (normalizeRow r) (normalizeRow r) = 1 := by
  unfold normalizeRow euclNorm
  rw [dot_map_div_left, dot_map_div_right, div_div,
    Real.mul_self_sqrt (dot_self_nonneg r)]
  exact div_self h

/-! ### The outer loop of `initRandProj` is the spec's modified Gram–Schmidt -/

theorem subtractLater_shift (u : List ℝ) (i k : ℕ) (m : List (List ℝ)) :
    subtractLater u (i + 1) (k + 1) m = subtractLater u i k m := by
  induction m generalizing k with
  | nil => rfl
  | cons r rs ih => simp [subtractLater, Nat.succ_lt_succ_iff, ih]

theorem subtractLater_all (u : List ℝ) (i : ℕ) (m : List (List ℝ)) :
    ∀ k, i < k → subtractLater u i k m = m.map (fun r => subtractProj u r) := by
  induction m with
  | nil => intro k _; rfl
  | cons r rs ih =>
    intro k hk
    simp [subtractLater, hk, ih (k + 1) (Nat.lt_succ_of_lt hk)]

theorem initRandProjStep_zero (r : List ℝ) (m : List (List ℝ)) :
    initRandProjStep (r :: m) 0 =
      normalizeRow r :: m.map (fun rk => subtractProj (normalizeRow r) rk) := by
  unfold initRandProjStep
  simp only [List.getD_cons_zero, List.set_cons_zero]
  rw [subtractLater]
  simp [subtractLater_all (normalizeRow r) 0 m 1 Nat.zero_lt_one]

theorem initRandProjStep_succ (u' : List ℝ) (m : List (List ℝ)) (i : ℕ) :
    initRandProjStep (u' :: m) (i + 1) = u' :: initRandProjStep m i := by
  unfold initRandProjStep
  simp only [List.getD_cons_succ, List.set_cons_succ]
  rw [subtractLater]
  simp [subtractLater_shift]

theorem foldl_step_map_succ (u' : List ℝ) (m : List (List ℝ)) (l : List ℕ) :
    (l.map Nat.succ).foldl initRandProjStep (u' :: m) =
      u' :: l.foldl initRandProjStep m := by
  induction l generalizing m with
  | nil => rfl
  | cons j l ih =>
    simp only [List.map_cons, List.foldl_cons, Nat.succ_eq_add_one,
      initRandProjStep_succ, ih]

theorem foldl_step_eq_spec :
    ∀ (n : ℕ) (mat : List (List ℝ)), mat.length = n →
      (List.range n).foldl initRandProjStep mat = specModifiedGramSchmidt mat := by
  intro n
  induction n with
  | zero =>
    intro mat h
    rw [List.length_eq_zero] at h
    subst h
    rw [specModifiedGramSchmidt]
    simp
  | succ n ih =>
    intro mat h
    cases mat with
    | nil => simp at h
    | cons r rest =>
      rw [List.range_succ_eq_map, List.foldl_cons, initRandProjStep_zero,
        foldl_step_map_succ, specModifiedGramSchmidt]
      congr 1
      exact ih _ (by simpa using h)

theorem gaussMatrix_length (nSrcDim nDstDim : ℕ) (draw : ℕ → ℕ → ℝ) :
    (gaussMatrix nSrcDim nDstDim draw).length = nDstDim := by
  simp [gaussMatrix]

theorem gaussMatrix_rows_length (nSrcDim nDstDim : ℕ) (draw : ℕ → ℕ → ℝ) :
    ∀ r ∈ gaussMatrix nSrcDim nDstDim draw, r.length = nSrcDim := by
  intro r hr
  simp only [gaussMatrix, List.mem_map] at hr
  obtain ⟨i, _, rfl⟩ := hr
  simp

theorem initRandProj_true_eq (nSrcDim nDstDim : ℕ) (draw : ℕ → ℕ → ℝ) :
    initRandProj nSrcDim nDstDim true draw =
      specModifiedGramSchmidt (gaussMatrix nSrcDim nDstDim draw) := by
  unfold initRandProj
  simp only [if_true]
  exact foldl_step_eq_spec nDstDim _ (gaussMatrix_length nSrcDim nDstDim draw)

/-! ### Orthonormality of the modified Gram–Schmidt process (exact arithmetic) -/

theorem specMGS_length (mat : List (List ℝ)) :
    (specModifiedGramSchmidt mat).length = mat.length := by
  induction mat using specModifiedGramSchmidt.induct with
  | case1 => rw [specModifiedGramSchmidt]
  | case2 r rest ih =>
    rw [specModifiedGramSchmidt]
    simp only [List.length_cons, ih, List.length_map]

theorem specMGS_rows_length (n : ℕ) :
    ∀ mat : List (List ℝ), (∀ r ∈ mat, r.length = n) →
      ∀ q ∈ specModifiedGramSchmidt mat, q.length = n := by
  intro mat
  induction mat using specModifiedGramSchmidt.induct with
  | case1 =>
    intro _ q hq
    rw [specModifiedGramSchmidt] at hq
    simp at hq
  | case2 r rest ih =>
    intro hlen q hq
    rw [specModifiedGramSchmidt] at hq
    rcases List.mem_cons.mp hq with h | h
    · rw [h, length_normalizeRow]
      exact hlen r (by simp)
    · refine ih ?_ q h
      intro p hp
      rcases List.mem_map.mp hp with ⟨p0, hp0, rfl⟩
      rw [length_subtractProj _ _
        (by rw [length_normalizeRow, hlen p0 (by simp [hp0]), hlen r (by simp)])]
      exact hlen p0 (by simp [hp0])

theorem specMGS_preserves_orth (n : ℕ) (u : List ℝ) :
    ∀ mat : List (List ℝ), (∀ r ∈ mat, r.length = n) →
      (∀ r ∈ mat, dot u r = 0) →
      ∀ q ∈ specModifiedGramSchmidt mat, dot u q = 0 := by
  intro mat
  induction mat using specModifiedGramSchmidt.induct with
  | case1 =>
    intro _ _ q hq
    rw [specModifiedGramSchmidt] at hq
    simp at hq
  | case2 r rest ih =>
    intro hlen horth q hq
    rw [specModifiedGramSchmidt] at hq
    rcases List.mem_cons.mp hq with h | h
    · rw [h, dot_normalizeRow_right, horth r (by simp), zero_div]
    · refine ih ?_ ?_ q h
      · intro p hp
        rcases List.mem_map.mp hp with ⟨p0, hp0, rfl⟩
        rw [length_subtractProj _ _
          (by rw [length_normalizeRow, hlen p0 (by simp [hp0]), hlen r (by simp)])]
        exact hlen p0 (by simp [hp0])
      · intro p hp
        rcases List.mem_map.mp hp with ⟨p0, hp0, rfl⟩
        rw [dot_subtractProj u (normalizeRow r) p0
          (by rw [length_normalizeRow, hlen p0 (by simp [hp0]), hlen r (by simp)])]
        rw [horth p0 (by simp [hp0]), dot_normalizeRow_right, horth r (by simp),
          zero_div]
        ring

theorem specMGS_orthonormal (n : ℕ) :
    ∀ mat : List (List ℝ), (∀ r ∈ mat, r.length = n) → gsNormsNonzero mat →
      (∀ q ∈ specModifiedGramSchmidt mat, dot q q = 1) ∧
        (specModifiedGramSchmidt mat).Pairwise (fun a b => dot a b = 0) := by
  intro mat
  induction mat using specModifiedGramSchmidt.induct with
  | case1 =>
    intro _ _
    rw [specModifiedGramSchmidt]
    exact ⟨by simp, List.Pairwise.nil⟩
  | case2 r rest ih =>
    intro hlen hnz
    rw [gsNormsNonzero] at hnz
    obtain ⟨h0, hrec⟩ := hnz
    have hlenr : r.length = n := hlen r (by simp)
    have hmaplen :
        ∀ p ∈ rest.map (fun rk => subtractProj (normalizeRow r) rk), p.length = n := by
      intro p hp
      rcases List.mem_map.mp hp with ⟨p0, hp0, rfl⟩
      rw [length_subtractProj _ _
        (by rw [length_normalizeRow, hlen p0 (by simp [hp0]), hlenr])]
      exact hlen p0 (by simp [hp0])
    have horthmap :
        ∀ p ∈ rest.map (fun rk => subtractProj (normalizeRow r) rk),
          dot (normalizeRow r) p = 0 := by
      intro p hp
      rcases List.mem_map.mp hp with ⟨p0, hp0, rfl⟩
      rw [dot_subtractProj _ _ _
        (by rw [length_normalizeRow, hlen p0 (by simp [hp0]), hlenr])]
      rw [dot_normalizeRow_self r h0]
      ring
    obtain ⟨hunit, hpair⟩ := ih hmaplen hrec
    rw [specModifiedGramSchmidt]
    constructor
    · intro q hq
      rcases List.mem_cons.mp hq with h | h
      · rw [h]
        exact dot_normalizeRow_self r h0
      · exact hunit q h
    · rw [List.pairwise_cons]
      refine ⟨?_, hpair⟩
      intro q hq
      exact specMGS_preserves_orth n (normalizeRow r) _ hmaplen horthmap q hq

/-! ### Shape invariants of `initRandProj` -/

theorem subtractLater_length (u : List ℝ) (i : ℕ) :
    ∀ (k : ℕ) (m : List (List ℝ)), (subtractLater u i k m).length = m.length := by
  intro k m
  induction m generalizing k with
  | nil => rfl
  | cons r rs ih => simp [subtractLater, ih]

theorem subtractLater_rows_length (n : ℕ) (u : List ℝ) (hu : u.length = n) (i : ℕ) :
    ∀ (k : ℕ) (m : List (List ℝ)), (∀ r ∈ m, r.length = n) →
      ∀ r ∈ subtractLater u i k m, r.length = n := by
  intro k m
  induction m generalizing k with
  | nil => intro _ r hr; simp [subtractLater] at hr
  | cons p ps ih =>
    intro h r hr
    rw [subtractLater] at hr
    rcases List.mem_cons.mp hr with h' | h'
    · subst h'
      by_cases hik : i < k
      · simp only [hik, if_true]
        rw [length_subtractProj _ _ (by rw [hu, h p (by simp)])]
        exact h p (by simp)
      · simp only [hik, if_false]
        exact h p (by simp)
    · exact ih (k + 1) (fun q hq => h q (by simp [hq])) r h'

theorem initRandProjStep_length (mat : List (List ℝ)) (i : ℕ) :
    (initRandProjStep mat i).length = mat.length := by
  unfold initRandProjStep
  rw [subtractLater_length, List.length_set]

theorem initRandProjStep_rows_length (n : ℕ) (mat : List (List ℝ)) (i : ℕ)
    (hi : i < mat.length) (h : ∀ r ∈ mat, r.length = n) :
    ∀ r ∈ initRandProjStep mat i, r.length = n := by
  unfold initRandProjStep
  have hmem : mat.getD i [] ∈ mat := by
    rw [List.getD_eq_getElem _ _ hi]
    exact List.getElem_mem hi
  have hu : (normalizeRow (mat.getD i [])).length = n := by
    rw [length_normalizeRow]
    exact h _ hmem
  refine subtractLater_rows_length n _ hu i 0 _ ?_
  intro r hr
  rcases List.mem_or_eq_of_mem_set hr with h' | h'
  · exact h r h'
  · rw [h']
    exact hu

theorem initRandProj_shape (nSrcDim nDstDim : ℕ) (b : Bool) (draw : ℕ → ℕ → ℝ) :
    (initRandProj nSrcDim nDstDim b draw).length = nDstDim ∧
      ∀ r ∈ initRandProj nSrcDim nDstDim b draw, r.length = nSrcDim := by
  have key : ∀ j ≤ nDstDim,
      ((List.range j).foldl
        (fun m i => if b then initRandProjStep m i else m)
        (gaussMatrix nSrcDim nDstDim draw)).length = nDstDim ∧
      ∀ r ∈ (List.range j).foldl
        (fun m i => if b then initRandProjStep m i else m)
        (gaussMatrix nSrcDim nDstDim draw), r.length = nSrcDim := by
    intro j
    induction j with
    | zero =>
      intro _
      exact ⟨gaussMatrix_length nSrcDim nDstDim draw,
        gaussMatrix_rows_length nSrcDim nDstDim draw⟩
    | succ j ih =>
      intro hj
      obtain ⟨hl, hr⟩ := ih (Nat.le_of_succ_le hj)
      rw [List.range_succ, List.foldl_append, List.foldl_cons, List.foldl_nil]
      cases b with
      | false => exact ⟨hl, hr⟩
      | true =>
        refine ⟨(initRandProjStep_length _ j).trans hl, ?_⟩
        exact initRandProjStep_rows_length nSrcDim _ j (by omega) hr
  exact key nDstDim (Nat.le_refl nDstDim)

/-! ### Claims about `initRandProj` -/

/-- C1: the claim says that with `doOrthonormalize = false` every returned row
is the drawn row divided by its Euclidean norm.  The code does not do this:
the whole body of the second loop, including the normalization, sits inside
`if (bDoOrth)`, contradicting the comment in the source ("Otherwise, just
divide each vector by its norm").  With `nSrcDim = nDstDim = 1` and a drawn
value of `2`, the returned matrix is `[[2]]`, whose row has norm `2 ≠ 1`,
while the claimed result would be the normalized row `[1]`. -/
theorem initRandProj_false_skips_normalization :
    initRandProj 1 1 false (fun _ _ => (2 : ℝ)) = [[(2 : ℝ)]] ∧
      euclNorm [(2 : ℝ)] ≠ 1 ∧
      normalizeRow [(2 : ℝ)] = [(1 : ℝ)] := by
  refine ⟨?_, ?_, ?_⟩
  · simp [initRandProj, gaussMatrix, List.range_succ]
  · have h4 : dot [(2 : ℝ)] [(2 : ℝ)] = 4 := by
      simp [dot]
      norm_num
    have : euclNorm [(2 : ℝ)] = 2 := by
      rw [euclNorm, h4, show (4 : ℝ) = 2 ^ 2 by norm_num,
        Real.sqrt_sq (by norm_num : (0 : ℝ) ≤ 2)]
    rw [this]
    norm_num
  · have h4 : dot [(2 : ℝ)] [(2 : ℝ)] = 4 := by
      simp [dot]
      norm_num
    have h2 : euclNorm [(2 : ℝ)] = 2 := by
      rw [euclNorm, h4, show (4 : ℝ) = 2 ^ 2 by norm_num,
        Real.sqrt_sq (by norm_num : (0 : ℝ) ≤ 2)]
    norm_num [normalizeRow, h2]

/-- C4: for `nSrcDim ≥ 1` and `nDstDim ≥ 1` and either value of the
orthonormalization flag, `initRandProj` returns a matrix of exactly
`nDstDim` rows, each of exactly `nSrcDim` elements. -/
theorem initRandProj_shape_claim (nSrcDim nDstDim : ℕ) (b : Bool)
    (draw : ℕ → ℕ → ℝ) (_h1 : 1 ≤ nSrcDim) (_h2 : 1 ≤ nDstDim) :
    (initRandProj nSrcDim nDstDim b draw).length = nDstDim ∧
      ∀ r ∈ initRandProj nSrcDim nDstDim b draw, r.length = nSrcDim :=
  initRandProj_shape nSrcDim nDstDim b draw

theorem initRandProj_shape_claim_witness :
    (initRandProj 1 2 true (fun _ _ => (1 : ℝ))).length = 2 ∧
      ∀ r ∈ initRandProj 1 2 true (fun _ _ => (1 : ℝ)), r.length = 1 :=
  initRandProj_shape_claim 1 2 true (fun _ _ => (1 : ℝ))
    (Nat.le_refl 1) (by norm_num)

/-- C5: under exact arithmetic, if every intermediate row met by the
orthonormalization has nonzero squared norm, then every row of a matrix
built with `doOrthonormalize = true` has unit Euclidean norm and any two
distinct rows have dot product zero. -/
theorem initRandProj_true_orthonormal (nSrcDim nDstDim : ℕ) (draw : ℕ → ℕ → ℝ)
    (hnz : gsNormsNonzero (gaussMatrix nSrcDim nDstDim draw)) :
    (∀ r ∈ initRandProj nSrcDim nDstDim true draw, euclNorm r = 1) ∧
      ∀ i k, i < nDstDim → k < nDstDim → i ≠ k →
        dot ((initRandProj nSrcDim nDstDim true draw).getD i [])
          ((initRandProj nSrcDim nDstDim true draw).getD k []) = 0 := by
  have heq := initRandProj_true_eq nSrcDim nDstDim draw
  obtain ⟨hunit, hpair⟩ :=
    specMGS_orthonormal nSrcDim (gaussMatrix nSrcDim nDstDim draw)
      (gaussMatrix_rows_length nSrcDim nDstDim draw) hnz
  have hlen : (initRandProj nSrcDim nDstDim true draw).length = nDstDim := by
    rw [heq, specMGS_length, gaussMatrix_length]
  constructor
  · intro r hr
    rw [heq] at hr
    rw [euclNorm, hunit r hr, Real.sqrt_one]
  · intro i k hi hk hik
    have hi' : i < (initRandProj nSrcDim nDstDim true draw).length := by omega
    have hk' : k < (initRandProj nSrcDim nDstDim true draw).length := by omega
    rw [List.getD_eq_getElem _ _ hi', List.getD_eq_getElem _ _ hk']
    have hpair' : (initRandProj nSrcDim nDstDim true draw).Pairwise
        (fun a b => dot a b = 0) := by
      rw [heq]
      exact hpair
    rcases Nat.lt_or_ge i k with hlt | hge
    · exact List.pairwise_iff_getElem.mp hpair' i k hi' hk' hlt
    · have hlt : k < i := by omega
      rw [dot_comm]
      exact List.pairwise_iff_getElem.mp hpair' k i hk' hi' hlt

theorem initRandProj_true_orthonormal_witness :
    (∀ r ∈ initRandProj 1 1 true (fun _ _ => (1 : ℝ)), euclNorm r = 1) ∧
      ∀ i k, i < 1 → k < 1 → i ≠ k →
        dot ((initRandProj 1 1 true (fun _ _ => (1 : ℝ))).getD i [])
          ((initRandProj 1 1 true (fun _ _ => (1 : ℝ))).getD k []) = 0 := by
  refine initRandProj_true_orthonormal 1 1 (fun _ _ => (1 : ℝ)) ?_
  have : gaussMatrix 1 1 (fun _ _ => (1 : ℝ)) = [[(1 : ℝ)]] := by
    simp [gaussMatrix, List.range_succ]
  rw [this, gsNormsNonzero]
  refine ⟨?_, ?_⟩
  · simp [dot]
  · rw [show ([] : List (List ℝ)).map
      (fun rk => subtractProj (normalizeRow [(1 : ℝ)]) rk) = [] from rfl,
      gsNormsNonzero]
    trivial

/-- C6: with `doOrthonormalize = true`, the outer loop of `initRandProj`
(normalize row `i` in place, then for every `k > i` subtract
`dot(row[i], row[k]) * row[i]` from row `k`, with no division by `row[i]`'s
norm, in increasing order of `i`, each row normalized exactly once) computes
exactly the spec's modified — normalize-before-subtract — Gram–Schmidt
process on the drawn matrix. -/
theorem initRandProj_true_is_modified_gram_schmidt
    (nSrcDim nDstDim : ℕ) (draw : ℕ → ℕ → ℝ) :
    initRandProj nSrcDim nDstDim true draw =
      specModifiedGramSchmidt (gaussMatrix nSrcDim nDstDim draw) :=
  initRandProj_true_eq nSrcDim nDstDim draw

/-! ### The write pattern of `compProjLoop` -/

theorem set_take_succ {α : Type _} (l : List α) (i : ℕ) (v : α) (h : i < l.length) :
    (l.set i v).take (i + 1) = l.take i ++ [v] := by
  rw [List.set_eq_take_cons_drop v h]
  have hlen : (l.take i).length = i := by
    rw [List.length_take]
    omega
  calc (l.take i ++ v :: l.drop (i + 1)).take (i + 1)
      = (l.take i ++ v :: l.drop (i + 1)).take ((l.take i).length + 1) := by rw [hlen]
    _ = l.take i ++ (v :: l.drop (i + 1)).take 1 := List.take_append 1
    _ = l.take i ++ [v] := by simp

theorem set_drop_of_lt {α : Type _} (l : List α) (i j : ℕ) (v : α) (hij : i < j) :
    (l.set i v).drop j = l.drop j := by
  by_cases h : i < l.length
  · rw [List.set_eq_take_cons_drop v h]
    have hlen : (l.take i).length = i := by
      rw [List.length_take]
      omega
    have hj : j = (l.take i).length + (j - i) := by omega
    rw [hj, List.drop_append]
    have hji : j - i = (j - i - 1) + 1 := by omega
    rw [hji, List.drop_succ_cons, List.drop_drop]
    congr 1
    omega
  · rw [List.set_eq_of_length_le (by omega)]

theorem compProjLoop_frame (nSrcDim : ℕ) :
    ∀ (rows : List (List ℝ)) (i : ℕ) (s : ProjState),
      (compProjLoop nSrcDim rows i s).1.projMatr = s.projMatr ∧
        (compProjLoop nSrcDim rows i s).1.srcVect = s.srcVect := by
  intro rows
  induction rows with
  | nil => intro i s; exact ⟨rfl, rfl⟩
  | cons r rs ih =>
    intro i s
    rw [compProjLoop]
    by_cases h : r.length ≠ nSrcDim
    · rw [if_pos h]
      exact ⟨rfl, rfl⟩
    · rw [if_neg h]
      exact ih (i + 1) _

theorem compProjLoop_ok_err (nSrcDim : ℕ) :
    ∀ (rows : List (List ℝ)) (i : ℕ) (s : ProjState),
      (∀ r ∈ rows, r.length = nSrcDim) →
      (compProjLoop nSrcDim rows i s).2 = none := by
  intro rows
  induction rows with
  | nil => intro i s _; rfl
  | cons r rs ih =>
    intro i s h
    rw [compProjLoop, if_neg (by simp [h r (by simp)])]
    exact ih (i + 1) _ (fun q hq => h q (by simp [hq]))

theorem compProjLoop_ok_dst (nSrcDim : ℕ) :
    ∀ (rows : List (List ℝ)) (i : ℕ) (s : ProjState),
      (∀ r ∈ rows, r.length = nSrcDim) →
      i + rows.length ≤ s.dstVect.length →
      (compProjLoop nSrcDim rows i s).1.dstVect =
        s.dstVect.take i ++ rows.map (fun r => dot r s.srcVect)
          ++ s.dstVect.drop (i + rows.length) := by
  intro rows
  induction rows with
  | nil =>
    intro i s _ _
    simp [compProjLoop, List.take_append_drop]
  | cons r rs ih =>
    intro i s h hlen
    have hi : i < s.dstVect.length := by
      simp only [List.length_cons] at hlen
      omega
    rw [compProjLoop, if_neg (by simp [h r (by simp)])]
    rw [ih (i + 1) _ (fun q hq => h q (by simp [hq]))
      (by simpa using by simp only [List.length_cons] at hlen; omega)]
    rw [set_take_succ _ _ _ hi,
      set_drop_of_lt _ _ _ _ (by omega : i < i + 1 + rs.length)]
    simp only [List.map_cons, List.length_cons]
    rw [show i + 1 + rs.length = i + (rs.length + 1) from by omega]
    simp [List.append_assoc]

theorem compProjLoop_fail_err (nSrcDim : ℕ) :
    ∀ (good : List (List ℝ)) (bad : List ℝ) (rest : List (List ℝ)) (i j : ℕ)
      (s : ProjState),
      (∀ r ∈ good, r.length = nSrcDim) → bad.length ≠ nSrcDim →
      j = i + good.length →
      (compProjLoop nSrcDim (good ++ bad :: rest) i s).2 =
        some (ProjError.badColCount j bad.length nSrcDim) := by
  intro good
  induction good with
  | nil =>
    intro bad rest i j s _ hbad hj
    rw [List.nil_append, compProjLoop, if_pos hbad]
    simp only [List.length_nil, Nat.add_zero] at hj
    rw [hj]
  | cons g good ih =>
    intro bad rest i j s h hbad hj
    rw [List.cons_append, compProjLoop, if_neg (by simp [h g (by simp)])]
    refine ih bad rest (i + 1) j _ (fun q hq => h q (by simp [hq])) hbad ?_
    simp only [List.length_cons] at hj
    omega

theorem compProjLoop_fail_dst (nSrcDim : ℕ) :
    ∀ (good : List (List ℝ)) (bad : List ℝ) (rest : List (List ℝ)) (i : ℕ)
      (s : ProjState),
      (∀ r ∈ good, r.length = nSrcDim) → bad.length ≠ nSrcDim →
      i + good.length ≤ s.dstVect.length →
      (compProjLoop nSrcDim (good ++ bad :: rest) i s).1.dstVect =
        s.dstVect.take i ++ good.map (fun r => dot r s.srcVect)
          ++ s.dstVect.drop (i + good.length) := by
  intro good
  induction good with
  | nil =>
    intro bad rest i s _ hbad _
    rw [List.nil_append, compProjLoop, if_pos hbad]
    simp [List.take_append_drop]
  | cons g good ih =>
    intro bad rest i s h hbad hlen
    have hi : i < s.dstVect.length := by
      simp only [List.length_cons] at hlen
      omega
    rw [List.cons_append, compProjLoop, if_neg (by simp [h g (by simp)])]
    rw [ih bad rest (i + 1) _ (fun q hq => h q (by simp [hq])) hbad
      (by simp only [List.length_set]; simp only [List.length_cons] at hlen; omega)]
    rw [set_take_succ _ _ _ hi,
      set_drop_of_lt _ _ _ _ (by omega : i < i + 1 + good.length)]
    simp only [List.map_cons, List.length_cons]
    rw [show i + 1 + good.length = i + (good.length + 1) from by omega]
    simp [List.append_assoc]

/-! ### Claims about `compProj` -/

theorem compProj_ok (nSrcDim nDstDim : ℕ) (s : ProjState)
    (hne : s.projMatr ≠ []) (hrows : s.projMatr.length = nDstDim)
    (hcols : ∀ r ∈ s.projMatr, r.length = nSrcDim)
    (hdst : s.dstVect.length = nDstDim) :
    (compProj nSrcDim nDstDim s).2 = none ∧
      (compProj nSrcDim nDstDim s).1.dstVect =
        s.projMatr.map (fun r => dot r s.srcVect) := by
  unfold compProj
  rw [if_neg (by simp [List.isEmpty_iff, hne]), if_neg (by simp [hrows])]
  refine ⟨compProjLoop_ok_err nSrcDim s.projMatr 0 s hcols, ?_⟩
  rw [compProjLoop_ok_dst nSrcDim s.projMatr 0 s hcols (by omega)]
  rw [List.take_zero, List.nil_append, Nat.zero_add]
  rw [List.drop_eq_nil_iff.mpr (by omega), List.append_nil]

/-- C2: on a valid call (nonempty matrix of exactly `nDstDim` rows, each of
length exactly `nSrcDim`, source vector of length `nSrcDim`, destination
buffer of length `nDstDim`), `compProj` raises no error and fully overwrites
the destination buffer with the per-row dot products: the final buffer is
exactly the map of `dot(row, src)` over the rows — in particular independent
of the buffer's prior contents — and `destVector[i] = dot(row i, src)` for
every `i < nDstDim`. -/
theorem compProj_projection_correct (nSrcDim nDstDim : ℕ) (s : ProjState)
    (hne : s.projMatr ≠ []) (hrows : s.projMatr.length = nDstDim)
    (hcols : ∀ r ∈ s.projMatr, r.length = nSrcDim)
    (_hsrc : s.srcVect.length = nSrcDim)
    (hdst : s.dstVect.length = nDstDim) :
    (compProj nSrcDim nDstDim s).2 = none ∧
      (compProj nSrcDim nDstDim s).1.dstVect =
        s.projMatr.map (fun r => dot r s.srcVect) ∧
      ∀ i, i < nDstDim →
        (compProj nSrcDim nDstDim s).1.dstVect.getD i 0 =
          dot (s.projMatr.getD i []) s.srcVect := by
  obtain ⟨herr, hmap⟩ := compProj_ok nSrcDim nDstDim s hne hrows hcols hdst
  refine ⟨herr, hmap, ?_⟩
  intro i hi
  have hi' : i < s.projMatr.length := by omega
  rw [hmap, List.getD_eq_getElem _ _ (by rw [List.length_map]; exact hi'),
    List.getElem_map, List.getD_eq_getElem _ _ hi']

theorem compProj_projection_correct_witness :
    (compProj 2 1 ⟨[[2, 3]], [4, 5], [9]⟩).2 = none ∧
      (compProj 2 1 ⟨[[2, 3]], [4, 5], [9]⟩).1.dstVect =
        [[(2 : ℝ), 3]].map (fun r => dot r [4, 5]) ∧
      ∀ i, i < 1 →
        (compProj 2 1 ⟨[[2, 3]], [4, 5], [9]⟩).1.dstVect.getD i 0 =
          dot (([[(2 : ℝ), 3]]).getD i []) [4, 5] :=
  compProj_projection_correct 2 1 ⟨[[2, 3]], [4, 5], [9]⟩
    (by simp) (by simp) (by simp) (by simp) (by simp)

/-- C3 is false as stated: the per-row length check sits inside the write
loop, so when the first offending row has index `> 0` the earlier elements of
the destination buffer have already been overwritten when the check fails.
Concretely, for matrix `[[1], [1, 2]]` with `nSrcDim = 1`, `nDstDim = 2`,
source `[1]` and initial buffer `[5, 5]`, the call fails on row 1 but has
already written index 0: the buffer is not unchanged. -/
theorem compProj_partial_write_counterexample :
    ((compProj 1 2 ⟨[[1], [1, 2]], [1], [5, 5]⟩).2).isSome = true ∧
      (compProj 1 2 ⟨[[1], [1, 2]], [1], [5, 5]⟩).1.dstVect ≠ [5, 5] := by
  have hval : compProj 1 2 ⟨[[1], [1, 2]], [1], [5, 5]⟩ =
      (⟨[[1], [1, 2]], [1], [dot [1] [1], 5]⟩,
        some (ProjError.badColCount 1 2 1)) := by
    rw [compProj]
    rw [if_neg (by simp)]
    rw [if_neg (by simp)]
    rw [compProjLoop, if_neg (by simp)]
    rw [compProjLoop, if_pos (by simp)]
    rfl
  rw [hval]
  refine ⟨rfl, ?_⟩
  have h1 : dot [(1 : ℝ)] [1] = 1 := by
    simp [dot]
  rw [h1]
  intro h
  have := List.head_eq_of_cons_eq h
  norm_num at this

/-- C3, amended by the counterexample: when the empty-matrix or row-count
check fails, the destination buffer is untouched; when the row-length check
fails at the first offending row (index `good.length`), the elements before
that index have already been overwritten with their row dot products, and the
elements from that index on are unchanged. -/
theorem compProj_failed_check_writes (nSrcDim nDstDim : ℕ) (s : ProjState) :
    (s.projMatr = [] ∨ s.projMatr.length ≠ nDstDim →
      (compProj nSrcDim nDstDim s).1 = s) ∧
    (∀ (good : List (List ℝ)) (bad : List ℝ) (rest : List (List ℝ)),
      s.projMatr = good ++ bad :: rest →
      s.projMatr.length = nDstDim →
      (∀ r ∈ good, r.length = nSrcDim) →
      bad.length ≠ nSrcDim →
      good.length ≤ s.dstVect.length →
      (compProj nSrcDim nDstDim s).2 =
        some (ProjError.badColCount good.length bad.length nSrcDim) ∧
      (compProj nSrcDim nDstDim s).1.dstVect =
        good.map (fun r => dot r s.srcVect)
          ++ s.dstVect.drop good.length) := by
  constructor
  · intro h
    rw [compProj]
    by_cases hemp : s.projMatr.isEmpty
    · rw [if_pos hemp]
    · rw [if_neg hemp]
      have hlen : s.projMatr.length ≠ nDstDim := by
        rcases h with h | h
        · exact absurd (List.isEmpty_iff.mpr h) hemp
        · exact h
      rw [if_pos hlen]
  · intro good bad rest hsplit hrows hgood hbad hdst
    have hne : s.projMatr ≠ [] := by
      rw [hsplit]
      simp
    rw [compProj, if_neg (by simp [List.isEmpty_iff, hne]), if_neg (by simp [hrows])]
    constructor
    · rw [hsplit]
      exact compProjLoop_fail_err nSrcDim good bad rest 0 good.length s hgood hbad
        (by omega)
    · rw [hsplit]
      rw [compProjLoop_fail_dst nSrcDim good bad rest 0 s hgood hbad (by omega)]
      rw [List.take_zero, List.nil_append, Nat.zero_add]

theorem compProj_failed_check_writes_witness :
    (compProj 1 2 ⟨[[1], [1, 2]], [1], [5, 5]⟩).2 =
      some (ProjError.badColCount 1 2 1) ∧
      (compProj 1 2 ⟨[[1], [1, 2]], [1], [5, 5]⟩).1.dstVect =
        [[(1 : ℝ)]].map (fun r => dot r [1]) ++ [(5 : ℝ), 5].drop 1 := by
  have h := (compProj_failed_check_writes 1 2 ⟨[[1], [1, 2]], [1], [5, 5]⟩).2
    [[1]] [1, 2] [] rfl rfl (by simp) (by simp) (by simp)
  simpa using h

theorem compProjLoop_err_none_iff (nSrcDim : ℕ) :
    ∀ (rows : List (List ℝ)) (i : ℕ) (s : ProjState),
      (compProjLoop nSrcDim rows i s).2 = none ↔ ∀ r ∈ rows, r.length = nSrcDim := by
  intro rows
  induction rows with
  | nil =>
    intro i s
    simp [compProjLoop]
  | cons r rs ih =>
    intro i s
    rw [compProjLoop]
    by_cases h : r.length ≠ nSrcDim
    · rw [if_pos h]
      simp [h]
    · rw [if_neg h]
      rw [not_not] at h
      rw [ih (i + 1)]
      simp [List.forall_mem_cons, h]

/-- C7: `compProj` reports a fatal error exactly when a shape precondition is
violated — the matrix is empty, or its row count differs from `nDstDim`, or
some row's length differs from `nSrcDim`; on valid shapes no error is raised
(and by C2 the output has exactly the `nDstDim` dot products: nothing is
silently truncated or padded). -/
theorem compProj_fatal_iff_shape_mismatch (nSrcDim nDstDim : ℕ) (s : ProjState) :
    (compProj nSrcDim nDstDim s).2 ≠ none ↔
      (s.projMatr = [] ∨ s.projMatr.length ≠ nDstDim ∨
        ∃ r ∈ s.projMatr, r.length ≠ nSrcDim) := by
  rw [compProj]
  by_cases hemp : s.projMatr.isEmpty
  · rw [if_pos hemp]
    simp [List.isEmpty_iff.mp hemp]
  · have hne : s.projMatr ≠ [] := by
      intro h
      exact hemp (List.isEmpty_iff.mpr h)
    rw [if_neg hemp]
    by_cases hlen : s.projMatr.length ≠ nDstDim
    · rw [if_pos hlen]
      simp [hne, hlen]
    · rw [if_neg hlen]
      rw [not_not] at hlen
      constructor
      · intro h
        right; right
        by_contra hall
        push_neg at hall
        exact h ((compProjLoop_err_none_iff nSrcDim s.projMatr 0 s).mpr hall)
      · intro h
        rcases h with h | h | h
        · exact absurd h hne
        · exact absurd hlen h
        · intro hnone
          obtain ⟨r, hr, hlen'⟩ := h
          exact hlen' ((compProjLoop_err_none_iff nSrcDim s.projMatr 0 s).mp hnone r hr)

/-- C8: `compProj` never modifies the projection matrix or the source vector:
whatever the inputs (valid or not), the returned state carries them
unchanged; its only effect is on the destination buffer. -/
theorem compProj_no_side_effects (nSrcDim nDstDim : ℕ) (s : ProjState) :
    (compProj nSrcDim nDstDim s).1.projMatr = s.projMatr ∧
      (compProj nSrcDim nDstDim s).1.srcVect = s.srcVect := by
  rw [compProj]
  by_cases hemp : s.projMatr.isEmpty
  · rw [if_pos hemp]
    exact ⟨rfl, rfl⟩
  · rw [if_neg hemp]
    by_cases hlen : s.projMatr.length ≠ nDstDim
    · rw [if_pos hlen]
      exact ⟨rfl, rfl⟩
    · rw [if_neg hlen]
      exact compProjLoop_frame nSrcDim s.projMatr 0 s

/-- C9: `compProj` is deterministic: two valid calls with the same projection
matrix, the same source vector and the same dimensions produce identical
destination buffers, regardless of the two buffers' prior contents. -/
theorem compProj_deterministic (nSrcDim nDstDim : ℕ) (s1 s2 : ProjState)
    (hm : s1.projMatr = s2.projMatr) (hs : s1.srcVect = s2.srcVect)
    (hne : s1.projMatr ≠ []) (hrows : s1.projMatr.length = nDstDim)
    (hcols : ∀ r ∈ s1.projMatr, r.length = nSrcDim)
    (hd1 : s1.dstVect.length = nDstDim) (hd2 : s2.dstVect.length = nDstDim) :
    (compProj nSrcDim nDstDim s1).1.dstVect =
      (compProj nSrcDim nDstDim s2).1.dstVect := by
  obtain ⟨-, h1⟩ := compProj_ok nSrcDim nDstDim s1 hne hrows hcols hd1
  obtain ⟨-, h2⟩ := compProj_ok nSrcDim nDstDim s2 (hm ▸ hne) (hm ▸ hrows)
    (hm ▸ hcols) hd2
  rw [h1, h2, hm, hs]

theorem compProj_deterministic_witness :
    (compProj 1 1 ⟨[[2]], [3], [7]⟩).1.dstVect =
      (compProj 1 1 ⟨[[2]], [3], [9]⟩).1.dstVect :=
  compProj_deterministic 1 1 ⟨[[2]], [3], [7]⟩ ⟨[[2]], [3], [9]⟩
    rfl rfl (by simp) (by simp) (by simp) (by simp) (by simp)

/-- C10: an empty projection matrix is fatal even with `nDstDim = 0`, where
the row-count precondition holds vacuously (`[]` has `0 = nDstDim` rows):
the empty-matrix check fires first, so there is no vacuous success path. -/
theorem compProj_empty_fatal_zero_dst (nSrcDim : ℕ) (src dst : List ℝ) :
    (compProj nSrcDim 0 ⟨[], src, dst⟩).2 = some ProjError.emptyMatrix ∧
      ([] : List (List ℝ)).length = 0 := by
  constructor
  · rw [compProj, if_pos (by simp)]
  · rfl

end RandProj
